import Mathlib

/-!
# Cold-chain logistics front end

A shallow embedding of the algorithmic parts of
`src/components/LogisticsOptimizer.jsx`:

* `decodePolyline` (lines 210-242), the decoder of Google's encoded polyline
  format, with the 32-bit semantics JavaScript gives to `|=`, `<<`, `>>`, `&`
  and `~`;
* the request that `handleOptimize` (lines 84-112) builds from the form state;
* `getRouteColor` (lines 245-248).

A JavaScript string is a sequence of UTF-16 code units and is modelled as a
`List Nat` of character codes.  A JavaScript number that may be `NaN` is
modelled as an `Option Int`, `none` standing for `NaN`.
-/

namespace LogisticsOptimizer

/-! ## JavaScript number operations -/

/-- The abstract operation ToInt32: an integer wrapped into the signed 32-bit
range `[-2^31, 2^31)`. -/
def toInt32 (x : Int) : Int := (x + 2147483648) % 4294967296 - 2147483648

/-- The abstract operation ToUint32: the 32-bit two's complement pattern of an
integer, as a natural number below `2^32`. -/
def toUint32 (x : Int) : Nat := (x % 4294967296).toNat

/-- ToInt32 of a JavaScript number: `NaN` is converted to `0`. -/
def int32OfNumber : Option Int → Int
  | none => 0
  | some v => toInt32 v

/-- JavaScript `a & b`: both operands are converted to 32 bits, the patterns
are combined bit by bit and the result is read as a signed 32-bit integer. -/
def and32 (a b : Int) : Int := toInt32 (Int.ofNat (toUint32 a &&& toUint32 b))

/-- JavaScript `a | b`. -/
def or32 (a b : Int) : Int := toInt32 (Int.ofNat (toUint32 a ||| toUint32 b))

/-- JavaScript `a << count`: only the low five bits of the count are used and
the bits shifted beyond bit 31 are lost. -/
def shl32 (a : Int) (count : Nat) : Int :=
  toInt32 (Int.ofNat (toUint32 a <<< (count % 32)))

/-- JavaScript `a >> count`: the sign-propagating right shift. -/
def sar32 (a : Int) (count : Nat) : Int := toInt32 a >>> (count % 32)

/-- JavaScript `~a`. -/
def not32 (a : Int) : Int := -(toInt32 a) - 1

/-- The integer nearest to `x` that a JavaScript number (IEEE 754 binary64, 53
significant bits) can hold, ties going to the even significand.  Every integer
of magnitude at most `2^53` is held exactly.  The overflow to `Infinity`, from
`2^1024` on, is left out: the accumulators grow by less than `2^31` per value
read, and a string has fewer than `2^53` characters. -/
def roundDouble (x : Int) : Int :=
  let a := x.natAbs
  if a ≤ 9007199254740992 then x
  else
    let unit := 2 ^ (Nat.log2 a - 52)
    let q := a / unit
    let r := a % unit
    let m := if 2 * r < unit then q
             else if unit < 2 * r then q + 1
             else if q % 2 = 0 then q else q + 1
    Int.sign x * Int.ofNat (m * unit)

/-- JavaScript `a + b` on numbers that hold integers: the exact sum, rounded
to the nearest representable number. -/
def numAdd (a b : Int) : Int := roundDouble (a + b)

/-! ## The polyline decoder -/

/-- A decoded point.  The source pushes `{ lat: lat / 1e5, lng: lng / 1e5 }`;
the model records the two accumulators `lat` and `lng` themselves, in units of
`1e-5` degree, before that floating-point division. -/
structure Point where
  lat : Int
  lng : Int
  deriving DecidableEq, Repr

/-- The expression `encoded.charAt(index).charCodeAt(0) - 63`.  Past the end of
the string `charAt` gives the empty string, whose `charCodeAt(0)` is `NaN`. -/
def byteAt (encoded : List Nat) (index : Nat) : Option Int :=
  match encoded[index]? with
  | some code => some (Int.ofNat code - 63)
  | none => none

/-- The loop condition `b >= 0x20`; a comparison with `NaN` is false. -/
def continues : Option Int → Bool
  | none => false
  | some b => decide (0x20 ≤ b)

/-- The conditional `(result & 1) ? ~(result >> 1) : (result >> 1)`. -/
def signedDelta (result : Int) : Int :=
  if and32 result 1 ≠ 0 then not32 (sar32 result 1) else sar32 result 1

/-- One `do { ... } while (b >= 0x20)` loop of `decodePolyline`, started at
`index` with the given `shift` and `result`.  It returns the final `result`
and the final `index`.  `fuel` bounds the number of iterations; `none` means
the bound was reached. -/
def readValue (encoded : List Nat) : Nat → Nat → Nat → Int → Option (Int × Nat)
  | 0, _, _, _ => none
  | fuel + 1, index, shift, result =>
    let b := byteAt encoded index
    let result := or32 result (shl32 (and32 (int32OfNumber b) 0x1f) shift)
    if continues b then readValue encoded fuel (index + 1) (shift + 5) result
    else some (result, index + 1)

/-- The loop `while (index < len) { ... }` of `decodePolyline`.  `inner` is the
iteration bound handed to each of the two inner loops, `fuel` bounds the
iterations of this loop; `none` means a bound was reached. -/
def decodeLoop (encoded : List Nat) (inner : Nat) :
    Nat → Nat → Int → Int → List Point → Option (List Point)
  | 0, _, _, _, _ => none
  | fuel + 1, index, lat, lng, poly =>
    if index < encoded.length then
      match readValue encoded inner index 0 0 with
      | none => none
      | some (result, index) =>
        let dlat := signedDelta result
        let lat := numAdd lat dlat
        match readValue encoded inner index 0 0 with
        | none => none
        | some (result, index) =>
          let dlng := signedDelta result
          let lng := numAdd lng dlng
          decodeLoop encoded inner fuel index lat lng (poly ++ [⟨lat, lng⟩])
    else some poly

/-- The function `decodePolyline`.  Every loop is given `encoded.length + 1`
iterations, which is always enough (`decodeLoop_length`), so the result is
never `none`; more fuel does not change it (`decodeLoop_fuel_le`). -/
def decodePolyline (encoded : List Nat) : Option (List Point) :=
  decodeLoop encoded (encoded.length + 1) (encoded.length + 1) 0 0 0 []

/-- The character codes of a string of ASCII characters. -/
def codes (s : String) : List Nat := s.toList.map Char.toNat

/-! ## The standard encoder

The specification compares the decoder with "the standard complementary
encoder", which the repository does not contain.  The definitions of this
section follow the words of the specification and of the published scheme, on
mathematical integers: each coordinate is replaced by its difference from the
previous point (the first from `(0, 0)`), the difference `d` is mapped to
`2 * d` when `d ≥ 0` and to `-2 * d - 1` when `d < 0`, and the result is
written in 5-bit chunks, lowest first, each chunk but the last with the bit
`0x20` set, and `63` added to every chunk. -/

/-- The sign mapping of the encoder. -/
def zigzag (d : Int) : Nat := if d < 0 then (-2 * d - 1).toNat else (2 * d).toNat

/-- The chunks of `value`, lowest first; `fuel` bounds the number of
continuation chunks. -/
def encodeChunks : Nat → Nat → List Nat
  | 0, value => [value + 63]
  | fuel + 1, value =>
    if 0x20 ≤ value then ((0x20 ||| (value &&& 0x1f)) + 63) :: encodeChunks fuel (value >>> 5)
    else [value + 63]

/-- The characters of one unsigned value.  A value has fewer than `value + 1`
chunks, so the bound is never reached. -/
def encodeValue (value : Nat) : List Nat := encodeChunks value value

/-- The characters of one signed difference. -/
def encodeSigned (d : Int) : List Nat := encodeValue (zigzag d)

/-- The encoding of a path that follows the point `(prevLat, prevLng)`. -/
def encodePath (prevLat prevLng : Int) : List Point → List Nat
  | [] => []
  | p :: rest =>
    encodeSigned (p.lat - prevLat) ++ encodeSigned (p.lng - prevLng) ++ encodePath p.lat p.lng rest

/-- The standard encoding of a path. -/
def encodePolyline (path : List Point) : List Nat := encodePath 0 0 path

/-! ## Vocabulary of the statements -/

/-- A character that keeps a value going: its code minus 63 is at least `0x20`. -/
def isContinuation (code : Nat) : Bool := continues (some (Int.ofNat code - 63))

/-- The number of complete values of a string: every character whose
continuation bit is clear ends exactly one. -/
def completeValues (encoded : List Nat) : Nat :=
  encoded.countP (fun code => !isContinuation code)

/-- The string ends in the middle of a value: its last character has the
continuation bit set. -/
def endsMidValue (encoded : List Nat) : Bool :=
  match encoded.getLast? with
  | some code => isContinuation code
  | none => false

/-- The number of values of a string, a truncated last one included. -/
def valueCount (encoded : List Nat) : Nat :=
  completeValues encoded + (if endsMidValue encoded then 1 else 0)

/-- The number of reads one inner loop makes when it starts on the characters
`rest`: one for each leading continuation character, and one more, for the
character that ends the value or for the read past the end. -/
def valueLength : List Nat → Nat
  | [] => 1
  | code :: rest => if isContinuation code then valueLength rest + 1 else 1

/-- Every difference between successive points, the first taken from
`(prevLat, prevLng)`, lies in `[-2^30, 2^30)`. -/
def DeltasFit (prevLat prevLng : Int) : List Point → Prop
  | [] => True
  | p :: rest =>
    (-1073741824 ≤ p.lat - prevLat ∧ p.lat - prevLat < 1073741824) ∧
    (-1073741824 ≤ p.lng - prevLng ∧ p.lng - prevLng < 1073741824) ∧
    DeltasFit p.lat p.lng rest

/-- The differences the encoder writes for a path that follows the point
`(prevLat, prevLng)`, in the order in which it writes them. -/
def pathDeltas (prevLat prevLng : Int) : List Point → List Int
  | [] => []
  | p :: rest => (p.lat - prevLat) :: (p.lng - prevLng) :: pathDeltas p.lat p.lng rest

/-- Both coordinates are integers that a JavaScript number holds exactly. -/
def Point.Exact (p : Point) : Prop :=
  (-9007199254740992 ≤ p.lat ∧ p.lat ≤ 9007199254740992) ∧
  (-9007199254740992 ≤ p.lng ∧ p.lng ≤ 9007199254740992)

/-- A point of the earth, in units of `1e-5` degree. -/
def Point.OnEarth (p : Point) : Prop :=
  (-9000000 ≤ p.lat ∧ p.lat ≤ 9000000) ∧ (-18000000 ≤ p.lng ∧ p.lng ≤ 18000000)

/-! ## Route colours -/

/-- The palette of `getRouteColor`. -/
def colors : List String :=
  ["#FF6B6B", "#4ECDC4", "#45B7D1", "#96CEB4", "#FFEAA7", "#DDA0DD"]

/-- The function `getRouteColor`, for an integer `vehicleId`.  JavaScript's `%`
takes the sign of the dividend, and an array read at a negative index gives
`undefined`, here `none`. -/
def getRouteColor (vehicleId : Int) : Option String :=
  let position := Int.tmod vehicleId (Int.ofNat colors.length)
  if 0 ≤ position then colors[position.toNat]? else none

/-! ## The optimization request -/

/-- The form state read by `handleOptimize`. -/
structure FormData where
  startLocation : String
  endLocation : String
  waypoints : List String
  numVehicles : String
  optimizationType : String

/-- The request object built by `handleOptimize`. -/
structure OptimizationRequest where
  locations : List String
  num_vehicles : Option Int
  optimization_type : String
  demands : List Nat
  time_windows : List (Nat × Nat)

/-- The part of `handleOptimize` that builds the request (lines 89-112).
`filter(Boolean)` keeps the strings that are not empty; the error is the
message of the exception thrown by the validation.  `parseInt` is the
JavaScript built-in, taken as a parameter. -/
def buildRequest (parseInt : String → Option Int) (formData : FormData) :
    Except String OptimizationRequest :=
  let locations :=
    ([formData.startLocation] ++ formData.waypoints ++ [formData.endLocation]).filter
      (fun s => decide (s ≠ ""))
  if locations.length < 2 then Except.error "At least 2 locations required"
  else
    Except.ok
      { locations := locations
        num_vehicles := parseInt formData.numVehicles
        optimization_type := formData.optimizationType
        demands := [0] ++ formData.waypoints.map (fun _ => 1) ++ [1]
        time_windows :=
          [(0, 86400)] ++ formData.waypoints.map (fun _ => (28800, 64800)) ++ [(28800, 64800)] }


/-! ## Arithmetic of the 32-bit operations -/

theorem toInt32_eq_self {x : Int} (h₁ : -2147483648 ≤ x) (h₂ : x < 2147483648) :
    toInt32 x = x := by
  unfold toInt32; omega

theorem toUint32_ofNat {n : Nat} (h : n < 4294967296) : toUint32 (Int.ofNat n) = n := by
  unfold toUint32
  have : (Int.ofNat n) % 4294967296 = Int.ofNat n := by
    simp only [Int.ofNat_eq_coe]; omega
  rw [this]; rfl

theorem toUint32_toInt32 (x : Int) : toUint32 (toInt32 x) = toUint32 x := by
  unfold toUint32 toInt32
  congr 1
  omega

/-- The operation `b & 0x1f` gives the residue of `b` modulo 32. -/
theorem and32_toInt32_31 (b : Int) : and32 (toInt32 b) 0x1f = b % 32 := by
  unfold and32
  rw [toUint32_toInt32]
  have h31 : toUint32 0x1f = 2 ^ 5 - 1 := by decide
  rw [h31, Nat.and_pow_two_sub_one_eq_mod]
  have hlt : toUint32 b % 2 ^ 5 < 32 := Nat.mod_lt _ (by norm_num)
  rw [toInt32_eq_self (by simp only [Int.ofNat_eq_coe]; omega) (by simp only [Int.ofNat_eq_coe]; omega)]
  unfold toUint32
  simp only [Int.ofNat_eq_coe]
  omega

/-- A left shift that stays below bit 31 is a multiplication. -/
theorem shl32_ofNat {c shift : Nat} (hs : shift < 32) (h : c * 2 ^ shift < 2147483648) :
    shl32 (Int.ofNat c) shift = Int.ofNat (c * 2 ^ shift) := by
  unfold shl32
  have hc : c < 4294967296 := by
    have : 1 ≤ 2 ^ shift := Nat.one_le_two_pow
    nlinarith
  rw [toUint32_ofNat hc, Nat.mod_eq_of_lt hs, Nat.shiftLeft_eq]
  exact toInt32_eq_self (by simp only [Int.ofNat_eq_coe]; omega)
    (by simp only [Int.ofNat_eq_coe]; omega)

/-- Shifting zero gives zero, whatever the count. -/
theorem shl32_zero (shift : Nat) : shl32 0 shift = 0 := by
  unfold shl32
  have h0 : toUint32 0 = 0 := by decide
  rw [h0, Nat.zero_shiftLeft]; decide

/-- An OR with bits that lie above those already present is an addition. -/
theorem or32_ofNat {r c shift : Nat} (hr : r < 2 ^ shift)
    (h : r + c * 2 ^ shift < 2147483648) :
    or32 (Int.ofNat r) (Int.ofNat (c * 2 ^ shift)) = Int.ofNat (r + c * 2 ^ shift) := by
  unfold or32
  rw [toUint32_ofNat (by omega), toUint32_ofNat (by omega)]
  have hor : r ||| c * 2 ^ shift = r + c * 2 ^ shift := by
    rw [Nat.lor_comm, Nat.mul_comm c, ← Nat.mul_add_lt_is_or hr, Nat.add_comm]
  rw [hor]
  exact toInt32_eq_self (by simp only [Int.ofNat_eq_coe]; omega)
    (by simp only [Int.ofNat_eq_coe]; omega)

/-- An OR with zero leaves a 32-bit value as it is. -/
theorem or32_zero {r : Nat} (h : r < 2147483648) : or32 (Int.ofNat r) 0 = Int.ofNat r := by
  unfold or32
  have h0 : toUint32 0 = 0 := by decide
  rw [toUint32_ofNat (by omega), h0, Nat.or_zero]
  exact toInt32_eq_self (by simp only [Int.ofNat_eq_coe]; omega)
    (by simp only [Int.ofNat_eq_coe]; omega)

/-- One step of the accumulation `result |= (b & 0x1f) << shift`, for a byte
whose low five bits are `c`. -/
theorem accumulate_chunk {r c shift : Nat} {b : Int} (hb : b % 32 = Int.ofNat c)
    (hr : r < 2 ^ shift) (h : r + c * 2 ^ shift < 2147483648) :
    or32 (Int.ofNat r) (shl32 (and32 (int32OfNumber (some b)) 0x1f) shift)
      = Int.ofNat (r + c * 2 ^ shift) := by
  have hand : and32 (int32OfNumber (some b)) 0x1f = Int.ofNat c := by
    show and32 (toInt32 b) 0x1f = Int.ofNat c
    rw [and32_toInt32_31, hb]
  rw [hand]
  rcases Nat.eq_zero_or_pos c with hc | hc
  · subst hc
    have : shl32 (Int.ofNat 0) shift = 0 := shl32_zero shift
    rw [this]
    simp only [Nat.zero_mul, Nat.add_zero] at h ⊢
    exact or32_zero h
  · have hpow : 2 ^ shift < 2147483648 := by nlinarith
    have hs : shift < 32 := by
      by_contra hge
      have : 2 ^ 32 ≤ 2 ^ shift := Nat.pow_le_pow_right (by norm_num) (by omega)
      omega
    rw [shl32_ofNat hs (by omega)]
    exact or32_ofNat hr h

/-- The test `result & 1` reads the lowest bit. -/
theorem and32_ofNat_one {n : Nat} (h : n < 2147483648) :
    and32 (Int.ofNat n) 1 = Int.ofNat (n % 2) := by
  unfold and32
  have h1 : toUint32 1 = 2 ^ 1 - 1 := by decide
  rw [toUint32_ofNat (by omega), h1, Nat.and_pow_two_sub_one_eq_mod]
  exact toInt32_eq_self (by simp only [Int.ofNat_eq_coe]; omega)
    (by simp only [Int.ofNat_eq_coe]; omega)

/-- The shift `result >> 1` halves a value that is not negative. -/
theorem sar32_ofNat_one {n : Nat} (h : n < 2147483648) :
    sar32 (Int.ofNat n) 1 = Int.ofNat n / 2 := by
  unfold sar32
  rw [toInt32_eq_self (by simp only [Int.ofNat_eq_coe]; omega)
    (by simp only [Int.ofNat_eq_coe]; omega), Int.shiftRight_eq_div_pow]
  rfl

theorem zigzag_lt {d : Int} (h₁ : -1073741824 ≤ d) (h₂ : d < 1073741824) :
    zigzag d < 2147483648 := by
  unfold zigzag; split <;> omega

theorem zigzag_of_neg {d : Int} (h : d < 0) : Int.ofNat (zigzag d) = -2 * d - 1 := by
  unfold zigzag; rw [if_pos h]; simp only [Int.ofNat_eq_coe]; omega

theorem zigzag_of_nonneg {d : Int} (h : ¬ d < 0) : Int.ofNat (zigzag d) = 2 * d := by
  unfold zigzag; rw [if_neg h]; simp only [Int.ofNat_eq_coe]; omega

/-- The encoder marks a negative difference with the lowest bit. -/
theorem and32_zigzag_of_neg {d : Int} (h₁ : -1073741824 ≤ d) (h : d < 0) :
    and32 (Int.ofNat (zigzag d)) 1 = 1 := by
  rw [and32_ofNat_one (zigzag_lt h₁ (by omega))]
  have hzd := zigzag_of_neg h
  have hmod : zigzag d % 2 = 1 := by
    simp only [Int.ofNat_eq_coe] at hzd; omega
  rw [hmod]; rfl

/-- The sign mapping is undone by `signedDelta`, for differences in
`[-2^30, 2^30)`. -/
theorem signedDelta_zigzag {d : Int} (h₁ : -1073741824 ≤ d) (h₂ : d < 1073741824) :
    signedDelta (Int.ofNat (zigzag d)) = d := by
  have hz := zigzag_lt h₁ h₂
  unfold signedDelta
  rw [and32_ofNat_one hz, sar32_ofNat_one hz]
  unfold not32
  by_cases hd : d < 0
  · have hzd := zigzag_of_neg hd
    have hmod : zigzag d % 2 = 1 := by
      simp only [Int.ofNat_eq_coe] at hzd; omega
    rw [hmod, if_pos (by decide), hzd]
    rw [toInt32_eq_self (by omega) (by omega)]
    omega
  · have hzd := zigzag_of_nonneg hd
    have hmod : zigzag d % 2 = 0 := by
      simp only [Int.ofNat_eq_coe] at hzd; omega
    rw [hmod, if_neg (by decide), hzd]
    omega

/-- For a negative difference the complement rule gives `-(result >> 1) - 1`. -/
theorem complement_zigzag_of_neg {d : Int} (h₁ : -1073741824 ≤ d) (h : d < 0) :
    -(sar32 (Int.ofNat (zigzag d)) 1) - 1 = d := by
  rw [sar32_ofNat_one (zigzag_lt h₁ (by omega)), zigzag_of_neg h]
  omega

/-! ## Single steps of the inner loop -/

theorem byteAt_append (pre : List Nat) (c : Nat) (rest : List Nat) :
    byteAt (pre ++ c :: rest) pre.length = some (Int.ofNat c - 63) := by
  unfold byteAt
  rw [List.getElem?_append_right (Nat.le_refl _), Nat.sub_self, List.getElem?_cons_zero]

theorem byteAt_of_le {encoded : List Nat} {index : Nat} (h : encoded.length ≤ index) :
    byteAt encoded index = none := by
  unfold byteAt; rw [List.getElem?_eq_none h]

/-- A byte without the continuation bit ends the loop. -/
theorem readValue_stop {encoded : List Nat} {inner index shift : Nat} {result b : Int}
    (hb : byteAt encoded index = some b) (hlt : b < 32) :
    readValue encoded (inner + 1) index shift result
      = some (or32 result (shl32 (and32 (int32OfNumber (some b)) 0x1f) shift), index + 1) := by
  have hc : continues (some b) = false := by
    unfold continues; simp only [decide_eq_false_iff_not]; omega
  simp only [readValue, hb, hc, Bool.false_eq_true, if_false]

/-- A byte with the continuation bit makes the loop go round once more. -/
theorem readValue_continue {encoded : List Nat} {inner index shift : Nat} {result b : Int}
    (hb : byteAt encoded index = some b) (hge : 32 ≤ b) :
    readValue encoded (inner + 1) index shift result
      = readValue encoded inner (index + 1) (shift + 5)
          (or32 result (shl32 (and32 (int32OfNumber (some b)) 0x1f) shift)) := by
  have hc : continues (some b) = true := by
    unfold continues; simp only [decide_eq_true_eq]; omega
  simp only [readValue, hb, hc, if_true]

/-- A read past the end of the string ends the loop. -/
theorem readValue_past {encoded : List Nat} {inner index shift : Nat} {result : Int}
    (hb : byteAt encoded index = none) :
    readValue encoded (inner + 1) index shift result
      = some (or32 result (shl32 (and32 (int32OfNumber none) 0x1f) shift), index + 1) := by
  simp only [readValue, hb, continues, Bool.false_eq_true, if_false]

/-! ## Reading back what the encoder wrote -/

theorem encodeChunks_small {fuel value : Nat} (h : value < 32) :
    encodeChunks fuel value = [value + 63] := by
  cases fuel with
  | zero => rfl
  | succ n => simp only [encodeChunks]; rw [if_neg (by omega)]

theorem encodeChunks_large {fuel value : Nat} (h : 32 ≤ value) :
    encodeChunks (fuel + 1) value
      = (32 + value % 32 + 63) :: encodeChunks fuel (value / 32) := by
  simp only [encodeChunks]
  rw [if_pos (by omega)]
  have h1 : value &&& 0x1f = value % 32 := Nat.and_pow_two_sub_one_eq_mod value 5
  have h2 : 0x20 ||| value % 32 = 32 + value % 32 := by
    have := Nat.mul_add_lt_is_or (i := 5) (b := value % 32) (Nat.mod_lt _ (by norm_num)) 1
    simpa using this.symm
  rw [h1, h2, Nat.shiftRight_eq_div_pow]

/-- The inner loop, run over the chunks of `value`, adds `value` above the
bits already read and stops right after the last chunk. -/
theorem readValue_encodeChunks : ∀ (fuel value : Nat) (pre rest : List Nat)
    (shift r inner : Nat), value ≤ fuel → r < 2 ^ shift →
    r + value * 2 ^ shift < 2147483648 → (encodeChunks fuel value).length ≤ inner →
    readValue (pre ++ encodeChunks fuel value ++ rest) inner pre.length shift (Int.ofNat r)
      = some (Int.ofNat (r + value * 2 ^ shift),
          pre.length + (encodeChunks fuel value).length) := by
  intro fuel
  induction fuel with
  | zero =>
    intro value pre rest shift r inner hv hr hsum hin
    have hv0 : value < 32 := by omega
    rw [encodeChunks_small hv0] at hin ⊢
    obtain ⟨k, rfl⟩ : ∃ k, inner = k + 1 := ⟨inner - 1, by simp at hin; omega⟩
    have hb : byteAt (pre ++ [value + 63] ++ rest) pre.length
        = some (Int.ofNat (value + 63) - 63) := by
      rw [List.append_assoc]; exact byteAt_append _ _ _
    rw [readValue_stop hb (by simp only [Int.ofNat_eq_coe]; omega)]
    rw [accumulate_chunk (c := value) (by simp only [Int.ofNat_eq_coe]; omega) hr hsum]
    rfl
  | succ n ih =>
    intro value pre rest shift r inner hv hr hsum hin
    by_cases hsmall : value < 32
    · rw [encodeChunks_small hsmall] at hin ⊢
      obtain ⟨k, rfl⟩ : ∃ k, inner = k + 1 := ⟨inner - 1, by simp at hin; omega⟩
      have hb : byteAt (pre ++ [value + 63] ++ rest) pre.length
          = some (Int.ofNat (value + 63) - 63) := by
        rw [List.append_assoc]; exact byteAt_append _ _ _
      rw [readValue_stop hb (by simp only [Int.ofNat_eq_coe]; omega)]
      rw [accumulate_chunk (c := value) (by simp only [Int.ofNat_eq_coe]; omega) hr hsum]
      rfl
    · have hlarge : 32 ≤ value := by omega
      rw [encodeChunks_large hlarge] at hin ⊢
      obtain ⟨k, rfl⟩ : ∃ k, inner = k + 1 := ⟨inner - 1, by simp at hin; omega⟩
      have hb : byteAt (pre ++ (32 + value % 32 + 63) :: encodeChunks n (value / 32) ++ rest)
          pre.length = some (Int.ofNat (32 + value % 32 + 63) - 63) := by
        rw [List.append_assoc]; exact byteAt_append _ _ _
      rw [readValue_continue hb (by simp only [Int.ofNat_eq_coe]; omega)]
      have hdm : value = 32 * (value / 32) + value % 32 := (Nat.div_add_mod value 32).symm
      have hpow : 2 ^ (shift + 5) = 32 * 2 ^ shift := by rw [pow_add]; ring
      have hpos : 0 < 2 ^ shift := Nat.two_pow_pos shift
      have hsplit : value * 2 ^ shift
          = value % 32 * 2 ^ shift + value / 32 * (32 * 2 ^ shift) := by
        conv_lhs => rw [hdm]
        ring
      have hmodlt : value % 32 < 32 := Nat.mod_lt _ (by norm_num)
      have hstep : r + value % 32 * 2 ^ shift < 2 ^ (shift + 5) := by
        rw [hpow]; nlinarith
      rw [accumulate_chunk (c := value % 32) (by simp only [Int.ofNat_eq_coe]; omega) hr
        (by omega)]
      have hlist : pre ++ (32 + value % 32 + 63) :: encodeChunks n (value / 32) ++ rest
          = (pre ++ [32 + value % 32 + 63]) ++ encodeChunks n (value / 32) ++ rest := by
        simp
      have hidx : pre.length + 1 = (pre ++ [32 + value % 32 + 63]).length := by simp
      rw [hlist, hidx, ih (value / 32) _ rest (shift + 5) _ k (by omega) hstep
        (by rw [hpow]; omega) (by simp at hin; omega)]
      have e1 : r + value % 32 * 2 ^ shift + value / 32 * 2 ^ (shift + 5)
          = r + value * 2 ^ shift := by rw [hpow, hsplit]; omega
      have e2 : (pre ++ [32 + value % 32 + 63]).length + (encodeChunks n (value / 32)).length
          = pre.length + ((32 + value % 32 + 63) :: encodeChunks n (value / 32)).length := by
        simp only [List.length_append, List.length_cons, List.length_nil]; omega
      rw [e1, e2]

theorem encodeChunks_ne_nil (fuel value : Nat) : encodeChunks fuel value ≠ [] := by
  cases fuel with
  | zero => simp [encodeChunks]
  | succ n => simp only [encodeChunks]; split <;> simp

theorem encodeSigned_length_pos (d : Int) : 0 < (encodeSigned d).length :=
  List.length_pos.mpr (encodeChunks_ne_nil _ _)

/-- The inner loop reads a whole encoded difference back. -/
theorem readValue_encodeSigned (d : Int) (pre rest : List Nat) (inner : Nat)
    (h₁ : -1073741824 ≤ d) (h₂ : d < 1073741824) (hin : (encodeSigned d).length ≤ inner) :
    readValue (pre ++ encodeSigned d ++ rest) inner pre.length 0 0
      = some (Int.ofNat (zigzag d), pre.length + (encodeSigned d).length) := by
  have hz := zigzag_lt h₁ h₂
  have h := readValue_encodeChunks (zigzag d) (zigzag d) pre rest 0 0 inner (Nat.le_refl _)
    (by norm_num) (by omega) hin
  simp only [pow_zero, Nat.mul_one, Nat.zero_add] at h
  exact h

theorem roundDouble_eq_self {x : Int} (h₁ : -9007199254740992 ≤ x)
    (h₂ : x ≤ 9007199254740992) : roundDouble x = x := by
  unfold roundDouble
  simp only
  rw [if_pos (by omega)]

/-- The outer loop, started at the beginning of the encoding of `path`, appends
`path` to the points decoded so far. -/
theorem decodeLoop_encodePath : ∀ (path : List Point) (pre : List Nat) (lat lng : Int)
    (poly : List Point) (inner fuel : Nat), DeltasFit lat lng path →
    (∀ p ∈ path, p.Exact) → (pre ++ encodePath lat lng path).length ≤ inner →
    path.length < fuel →
    decodeLoop (pre ++ encodePath lat lng path) inner fuel pre.length lat lng poly
      = some (poly ++ path) := by
  intro path
  induction path with
  | nil =>
    intro pre lat lng poly inner fuel _ _ _ hfuel
    obtain ⟨f, rfl⟩ : ∃ f, fuel = f + 1 := ⟨fuel - 1, by simp at hfuel; omega⟩
    simp [decodeLoop, encodePath]
  | cons p rest ih =>
    intro pre lat lng poly inner fuel hfit hexact hin hfuel
    obtain ⟨f, rfl⟩ : ∃ f, fuel = f + 1 := ⟨fuel - 1, by simp at hfuel; omega⟩
    obtain ⟨⟨hlat₁, hlat₂⟩, ⟨hlng₁, hlng₂⟩, hrest⟩ := hfit
    obtain ⟨⟨elat₁, elat₂⟩, elng₁, elng₂⟩ := hexact p (List.mem_cons_self _ _)
    have hA := encodeSigned_length_pos (p.lat - lat)
    have hB := encodeSigned_length_pos (p.lng - lng)
    have hlen : (pre ++ encodePath lat lng (p :: rest)).length
        = pre.length + (encodeSigned (p.lat - lat)).length
          + (encodeSigned (p.lng - lng)).length + (encodePath p.lat p.lng rest).length := by
      simp only [encodePath, List.length_append]; omega
    have e1 : pre ++ encodePath lat lng (p :: rest)
        = pre ++ encodeSigned (p.lat - lat)
          ++ (encodeSigned (p.lng - lng) ++ encodePath p.lat p.lng rest) := by
      simp only [encodePath, List.append_assoc]
    have e2 : pre ++ encodePath lat lng (p :: rest)
        = (pre ++ encodeSigned (p.lat - lat)) ++ encodeSigned (p.lng - lng)
          ++ encodePath p.lat p.lng rest := by
      simp only [encodePath, List.append_assoc]
    have r1 : readValue (pre ++ encodePath lat lng (p :: rest)) inner pre.length 0 0
        = some (Int.ofNat (zigzag (p.lat - lat)),
            pre.length + (encodeSigned (p.lat - lat)).length) := by
      rw [e1]; exact readValue_encodeSigned _ _ _ _ hlat₁ hlat₂ (by omega)
    have r2 : readValue (pre ++ encodePath lat lng (p :: rest)) inner
        (pre.length + (encodeSigned (p.lat - lat)).length) 0 0
        = some (Int.ofNat (zigzag (p.lng - lng)),
            (pre ++ encodeSigned (p.lat - lat)).length
              + (encodeSigned (p.lng - lng)).length) := by
      rw [e2, ← List.length_append]
      exact readValue_encodeSigned _ _ _ _ hlng₁ hlng₂ (by omega)
    have hlatv : numAdd lat (signedDelta (Int.ofNat (zigzag (p.lat - lat)))) = p.lat := by
      rw [signedDelta_zigzag hlat₁ hlat₂]; unfold numAdd
      rw [roundDouble_eq_self (by omega) (by omega)]; omega
    have hlngv : numAdd lng (signedDelta (Int.ofNat (zigzag (p.lng - lng)))) = p.lng := by
      rw [signedDelta_zigzag hlng₁ hlng₂]; unfold numAdd
      rw [roundDouble_eq_self (by omega) (by omega)]; omega
    rw [decodeLoop, if_pos (by omega), r1]
    simp only
    rw [r2]
    simp only
    rw [hlatv, hlngv]
    have hidx : (pre ++ encodeSigned (p.lat - lat)).length + (encodeSigned (p.lng - lng)).length
        = (pre ++ encodeSigned (p.lat - lat) ++ encodeSigned (p.lng - lng)).length := by
      simp only [List.length_append]
    rw [hidx]
    have hih := ih (pre ++ encodeSigned (p.lat - lat) ++ encodeSigned (p.lng - lng)) p.lat p.lng
      (poly ++ [⟨p.lat, p.lng⟩]) inner f hrest
      (fun q hq => hexact q (List.mem_cons_of_mem _ hq))
      (by rw [← e2]; exact hin) (by simp at hfuel; omega)
    rw [← e2] at hih
    rw [hih]
    simp

theorem encodePath_length : ∀ (path : List Point) (lat lng : Int),
    2 * path.length ≤ (encodePath lat lng path).length := by
  intro path
  induction path with
  | nil => intro _ _; simp [encodePath]
  | cons p rest ih =>
    intro lat lng
    have hA := encodeSigned_length_pos (p.lat - lat)
    have hB := encodeSigned_length_pos (p.lng - lng)
    have := ih p.lat p.lng
    simp only [encodePath, List.length_append, List.length_cons]
    omega

/-- The round trip through the standard encoder, for differences that fit in
the 32-bit operations and coordinates that numbers hold exactly. -/
theorem decodePolyline_encodePolyline_of_fit (path : List Point) (hfit : DeltasFit 0 0 path)
    (hexact : ∀ p ∈ path, p.Exact) : decodePolyline (encodePolyline path) = some path := by
  have h := decodeLoop_encodePath path [] 0 0 [] ((encodePolyline path).length + 1)
    ((encodePolyline path).length + 1) hfit hexact
    (by simp only [List.nil_append, encodePolyline]; omega)
    (by have := encodePath_length path 0 0; unfold encodePolyline; omega)
  simpa [decodePolyline, encodePolyline] using h

/-! ## The loops on an arbitrary string -/

theorem valueLength_pos (s : List Nat) : 0 < valueLength s := by
  cases s with
  | nil => simp [valueLength]
  | cons c rest => simp only [valueLength]; split <;> omega

theorem valueLength_le : ∀ s : List Nat, valueLength s ≤ s.length + 1 := by
  intro s
  induction s with
  | nil => simp [valueLength]
  | cons c rest ih => simp only [valueLength, List.length_cons]; split <;> omega

/-- The inner loop always stops, after `valueLength` reads. -/
theorem readValue_drop (encoded : List Nat) : ∀ (fuel index shift : Nat) (result : Int),
    encoded.length - index < fuel →
    ∃ r, readValue encoded fuel index shift result
      = some (r, index + valueLength (encoded.drop index)) := by
  intro fuel
  induction fuel with
  | zero => intro index shift result h; omega
  | succ n ih =>
    intro index shift result h
    by_cases hlt : index < encoded.length
    · have hdrop : encoded.drop index = encoded[index] :: encoded.drop (index + 1) :=
        List.drop_eq_getElem_cons hlt
      have hb : byteAt encoded index = some (Int.ofNat encoded[index] - 63) := by
        unfold byteAt; rw [List.getElem?_eq_getElem hlt]
      by_cases hc : isContinuation encoded[index] = true
      · have hge : (32 : Int) ≤ Int.ofNat encoded[index] - 63 := by
          simpa [isContinuation, continues] using hc
        obtain ⟨r, hr⟩ := ih (index + 1) (shift + 5)
          (or32 result (shl32 (and32 (int32OfNumber
            (some (Int.ofNat encoded[index] - 63))) 0x1f) shift)) (by omega)
        refine ⟨r, ?_⟩
        rw [readValue_continue hb hge, hr, hdrop]
        simp only [valueLength, hc, if_true]
        congr 2; omega
      · have hlt32 : Int.ofNat encoded[index] - 63 < 32 := by
          simpa [isContinuation, continues] using hc
        refine ⟨or32 result (shl32 (and32 (int32OfNumber
          (some (Int.ofNat encoded[index] - 63))) 0x1f) shift), ?_⟩
        rw [readValue_stop hb hlt32, hdrop]
        simp only [valueLength, hc, Bool.false_eq_true, if_false]
    · have hnil : encoded.drop index = [] := List.drop_eq_nil_of_le (by omega)
      refine ⟨or32 result (shl32 (and32 (int32OfNumber none) 0x1f) shift), ?_⟩
      rw [readValue_past (byteAt_of_le (by omega)), hnil]
      rfl

/-- Whenever the inner loop returns, it has advanced the index. -/
theorem readValue_index_lt (encoded : List Nat) : ∀ (fuel index shift : Nat)
    (result r : Int) (index' : Nat),
    readValue encoded fuel index shift result = some (r, index') → index < index' := by
  intro fuel
  induction fuel with
  | zero => intro index shift result r index' h; simp [readValue] at h
  | succ n ih =>
    intro index shift result r index' h
    simp only [readValue] at h
    split at h
    · have := ih _ _ _ _ _ h; omega
    · simp only [Option.some.injEq, Prod.mk.injEq] at h; omega

theorem completeValues_cons (c : Nat) (rest : List Nat) :
    completeValues (c :: rest)
      = completeValues rest + (if isContinuation c then 0 else 1) := by
  unfold completeValues
  rw [List.countP_cons]
  cases isContinuation c <;> simp

theorem endsMidValue_cons_cons (c c' : Nat) (rest : List Nat) :
    endsMidValue (c :: c' :: rest) = endsMidValue (c' :: rest) := by
  unfold endsMidValue
  rw [List.getLast?_cons_cons]

theorem valueCount_nil : valueCount [] = 0 := by decide

theorem valueCount_singleton (c : Nat) : valueCount [c] = 1 := by
  unfold valueCount
  rw [completeValues_cons]
  have h0 : completeValues [] = 0 := by decide
  have h1 : endsMidValue [c] = isContinuation c := rfl
  rw [h0, h1]
  cases isContinuation c <;> simp

theorem valueCount_cons_cons (c c' : Nat) (rest : List Nat) :
    valueCount (c :: c' :: rest)
      = valueCount (c' :: rest) + (if isContinuation c then 0 else 1) := by
  unfold valueCount
  rw [completeValues_cons c, endsMidValue_cons_cons]
  omega

/-- One run of the inner loop takes exactly one value off a non-empty string. -/
theorem valueCount_drop_valueLength : ∀ s : List Nat, s ≠ [] →
    valueCount (s.drop (valueLength s)) + 1 = valueCount s := by
  intro s
  induction s with
  | nil => intro h; exact absurd rfl h
  | cons c rest ih =>
    intro _
    cases rest with
    | nil =>
      rw [valueCount_singleton]
      have : ([c] : List Nat).drop (valueLength [c]) = [] :=
        List.drop_eq_nil_of_le (by have := valueLength_pos [c]; simp; omega)
      rw [this, valueCount_nil]
    | cons c' rest' =>
      rw [valueCount_cons_cons]
      by_cases hc : isContinuation c = true
      · simp only [valueLength, hc, if_true, List.drop_succ_cons] at ih ⊢
        have := ih (by simp)
        simp only [valueLength] at this
        omega
      · simp only [valueLength, hc, Bool.false_eq_true, if_false, List.drop_succ_cons,
          List.drop_zero]

theorem valueCount_le_length : ∀ s : List Nat, valueCount s ≤ s.length := by
  intro s
  induction s with
  | nil => simp [valueCount_nil]
  | cons c rest ih =>
    cases rest with
    | nil => rw [valueCount_singleton]; simp
    | cons c' rest' =>
      rw [valueCount_cons_cons]
      simp only [List.length_cons] at ih ⊢
      split <;> omega

theorem valueCount_pos {s : List Nat} (h : s ≠ []) : 0 < valueCount s := by
  have := valueCount_drop_valueLength s h; omega

/-- The outer loop stops as soon as the index has reached the end. -/
theorem decodeLoop_done {encoded : List Nat} {inner fuel index : Nat} {lat lng : Int}
    {poly : List Point} (h : encoded.length ≤ index) :
    decodeLoop encoded inner (fuel + 1) index lat lng poly = some poly := by
  rw [decodeLoop, if_neg (by omega)]

/-- The outer loop always stops, and pushes one point for every two values. -/
theorem decodeLoop_length (encoded : List Nat) (inner : Nat) (hin : encoded.length < inner) :
    ∀ (fuel index : Nat) (lat lng : Int) (poly : List Point),
    (encoded.length - index + 1) / 2 < fuel →
    ∃ path, decodeLoop encoded inner fuel index lat lng poly = some path ∧
      path.length = poly.length + (valueCount (encoded.drop index) + 1) / 2 := by
  intro fuel
  induction fuel with
  | zero => intro index lat lng poly h; omega
  | succ n ih =>
    intro index lat lng poly h
    by_cases hlt : index < encoded.length
    · obtain ⟨r₁, h₁⟩ := readValue_drop encoded inner index 0 0 (by omega)
      obtain ⟨r₂, h₂⟩ := readValue_drop encoded inner
        (index + valueLength (encoded.drop index)) 0 0 (by omega)
      have hv₁ := valueLength_pos (encoded.drop index)
      have hv₂ := valueLength_pos (encoded.drop (index + valueLength (encoded.drop index)))
      obtain ⟨path, hpath, hlen⟩ := ih
        (index + valueLength (encoded.drop index)
          + valueLength (encoded.drop (index + valueLength (encoded.drop index))))
        (numAdd lat (signedDelta r₁)) (numAdd lng (signedDelta r₂))
        (poly ++ [⟨numAdd lat (signedDelta r₁), numAdd lng (signedDelta r₂)⟩]) (by omega)
      refine ⟨path, ?_, ?_⟩
      · rw [decodeLoop, if_pos hlt, h₁]
        simp only
        rw [h₂]
        simp only
        exact hpath
      · have hne : encoded.drop index ≠ [] := by
          intro hnil
          have := congrArg List.length hnil
          simp only [List.length_drop, List.length_nil] at this
          omega
        have hd₁ : encoded.drop (index + valueLength (encoded.drop index))
            = (encoded.drop index).drop (valueLength (encoded.drop index)) := by
          rw [List.drop_drop]
        have hd₂ : encoded.drop (index + valueLength (encoded.drop index)
              + valueLength (encoded.drop (index + valueLength (encoded.drop index))))
            = (encoded.drop (index + valueLength (encoded.drop index))).drop
                (valueLength (encoded.drop (index + valueLength (encoded.drop index)))) := by
          rw [List.drop_drop]
        have hc₁ := valueCount_drop_valueLength (encoded.drop index) hne
        rw [← hd₁] at hc₁
        rw [hlen, hd₂, List.length_append, List.length_singleton]
        by_cases hne₂ : encoded.drop (index + valueLength (encoded.drop index)) = []
        · rw [hne₂] at hc₁ ⊢
          rw [List.drop_nil, valueCount_nil]
          rw [valueCount_nil] at hc₁
          omega
        · have hc₂ := valueCount_drop_valueLength _ hne₂
          omega
    · refine ⟨poly, decodeLoop_done (by omega), ?_⟩
      rw [List.drop_eq_nil_of_le (by omega), valueCount_nil]
      omega

/-- More fuel does not change a result. -/
theorem decodeLoop_fuel_succ (encoded : List Nat) (inner : Nat) :
    ∀ (fuel index : Nat) (lat lng : Int) (poly path : List Point),
    decodeLoop encoded inner fuel index lat lng poly = some path →
    decodeLoop encoded inner (fuel + 1) index lat lng poly = some path := by
  intro fuel
  induction fuel with
  | zero => intro index lat lng poly path h; simp [decodeLoop] at h
  | succ n ih =>
    intro index lat lng poly path h
    rw [decodeLoop] at h ⊢
    split
    · rename_i hlt
      rw [if_pos hlt] at h
      split
      · rename_i h₁; rw [h₁] at h; exact h
      · rename_i r₁ i₁ h₁
        rw [h₁] at h
        simp only at h ⊢
        split
        · rename_i h₂; rw [h₂] at h; exact h
        · rename_i r₂ i₂ h₂
          rw [h₂] at h
          simp only at h
          exact ih _ _ _ _ _ h
    · rename_i hlt
      rw [if_neg hlt] at h; exact h

theorem decodeLoop_fuel_le (encoded : List Nat) (inner : Nat) {fuel fuel' index : Nat}
    {lat lng : Int} {poly path : List Point} (hle : fuel ≤ fuel')
    (h : decodeLoop encoded inner fuel index lat lng poly = some path) :
    decodeLoop encoded inner fuel' index lat lng poly = some path := by
  induction hle with
  | refl => exact h
  | step _ ih => exact decodeLoop_fuel_succ _ _ _ _ _ _ _ _ ih

/-- The function returns a path for every string, of a length fixed by the
number of values in the string. -/
theorem decodePolyline_length (encoded : List Nat) :
    ∃ path, decodePolyline encoded = some path ∧
      path.length = (valueCount encoded + 1) / 2 := by
  obtain ⟨path, h, hlen⟩ := decodeLoop_length encoded (encoded.length + 1) (by omega)
    (encoded.length + 1) 0 0 0 [] (by omega)
  refine ⟨path, h, ?_⟩
  simpa using hlen

/-! ## A string that ends in the middle of a value -/

/-- A read past the end and a read of the character `?` give a byte with the
same low bits and the same continuation test. -/
theorem byteAt_append_zero (encoded : List Nat) (index : Nat) :
    int32OfNumber (byteAt (encoded ++ [63]) index) = int32OfNumber (byteAt encoded index) ∧
    continues (byteAt (encoded ++ [63]) index) = continues (byteAt encoded index) := by
  rcases Nat.lt_trichotomy index encoded.length with h | h | h
  · have : byteAt (encoded ++ [63]) index = byteAt encoded index := by
      unfold byteAt; rw [List.getElem?_append_left h]
    rw [this]; exact ⟨rfl, rfl⟩
  · subst h
    rw [byteAt_append encoded 63 [], byteAt_of_le (Nat.le_refl _)]
    exact ⟨rfl, rfl⟩
  · rw [byteAt_of_le (by simp only [List.length_append, List.length_singleton]; omega),
      byteAt_of_le (by omega)]
    exact ⟨rfl, rfl⟩

/-- The inner loop cannot tell a string from the same string closed by `?`. -/
theorem readValue_append_zero (encoded : List Nat) : ∀ (fuel index shift : Nat)
    (result : Int),
    readValue (encoded ++ [63]) fuel index shift result
      = readValue encoded fuel index shift result := by
  intro fuel
  induction fuel with
  | zero => intro _ _ _; rfl
  | succ n ih =>
    intro index shift result
    obtain ⟨h₁, h₂⟩ := byteAt_append_zero encoded index
    simp only [readValue, h₁, h₂, ih]

/-- In a string that ends in the middle of a value no inner loop stops exactly
at the end. -/
theorem readValue_index_ne_length (encoded : List Nat) (hmid : endsMidValue encoded = true) :
    ∀ (fuel index shift : Nat) (result r : Int) (index' : Nat),
    readValue encoded fuel index shift result = some (r, index') →
    index' ≠ encoded.length := by
  intro fuel
  induction fuel with
  | zero => intro index shift result r index' h; simp [readValue] at h
  | succ n ih =>
    intro index shift result r index' h
    simp only [readValue] at h
    split at h
    · exact ih _ _ _ _ _ h
    · rename_i hc
      simp only [Option.some.injEq, Prod.mk.injEq] at h
      intro hlen
      apply hc
      have hidx : index = encoded.length - 1 := by omega
      have hlast : encoded.getLast? = encoded[index]? := by
        rw [List.getLast?_eq_getElem?, hidx]
      unfold endsMidValue at hmid
      rw [hlast] at hmid
      unfold byteAt
      cases hget : encoded[index]? with
      | none => rw [hget] at hmid; simp at hmid
      | some code => rw [hget] at hmid; exact hmid

/-- More fuel does not change the result of an inner loop. -/
theorem readValue_fuel_succ (encoded : List Nat) : ∀ (fuel index shift : Nat)
    (result : Int) (x : Int × Nat),
    readValue encoded fuel index shift result = some x →
    readValue encoded (fuel + 1) index shift result = some x := by
  intro fuel
  induction fuel with
  | zero => intro index shift result x h; simp [readValue] at h
  | succ n ih =>
    intro index shift result x h
    rw [readValue] at h ⊢
    split
    · rename_i hc; rw [if_pos hc] at h; exact ih _ _ _ _ h
    · rename_i hc; rw [if_neg hc] at h; exact h

/-- More fuel for the inner loops does not change the result of the outer
loop. -/
theorem decodeLoop_inner_succ (encoded : List Nat) (inner : Nat) :
    ∀ (fuel index : Nat) (lat lng : Int) (poly path : List Point),
    decodeLoop encoded inner fuel index lat lng poly = some path →
    decodeLoop encoded (inner + 1) fuel index lat lng poly = some path := by
  intro fuel
  induction fuel with
  | zero => intro index lat lng poly path h; simp [decodeLoop] at h
  | succ n ih =>
    intro index lat lng poly path h
    rw [decodeLoop] at h ⊢
    split
    · rename_i hlt
      rw [if_pos hlt] at h
      cases h₁ : readValue encoded inner index 0 0 with
      | none => rw [h₁] at h; simp at h
      | some x₁ =>
        obtain ⟨r₁, i₁⟩ := x₁
        rw [h₁] at h
        rw [readValue_fuel_succ encoded _ _ _ _ _ h₁]
        simp only at h ⊢
        cases h₂ : readValue encoded inner i₁ 0 0 with
        | none => rw [h₂] at h; simp at h
        | some x₂ =>
          obtain ⟨r₂, i₂⟩ := x₂
          rw [h₂] at h
          rw [readValue_fuel_succ encoded _ _ _ _ _ h₂]
          simp only at h ⊢
          exact ih _ _ _ _ _ h
    · rename_i hlt
      rw [if_neg hlt] at h; exact h

/-- The outer loop on a string that ends in the middle of a value, and on the
same string closed by `?`. -/
theorem decodeLoop_append_zero (encoded : List Nat) (hmid : endsMidValue encoded = true)
    (inner : Nat) : ∀ (fuel index : Nat) (lat lng : Int) (poly : List Point),
    index ≠ encoded.length →
    decodeLoop (encoded ++ [63]) inner fuel index lat lng poly
      = decodeLoop encoded inner fuel index lat lng poly := by
  intro fuel
  induction fuel with
  | zero => intro _ _ _ _ _; rfl
  | succ n ih =>
    intro index lat lng poly hne
    rw [decodeLoop, decodeLoop]
    simp only [readValue_append_zero, List.length_append, List.length_singleton]
    by_cases hlt : index < encoded.length
    · rw [if_pos (by omega), if_pos hlt]
      cases h₁ : readValue encoded inner index 0 0 with
      | none => rfl
      | some x₁ =>
        obtain ⟨r₁, i₁⟩ := x₁
        simp only
        cases h₂ : readValue encoded inner i₁ 0 0 with
        | none => rfl
        | some x₂ =>
          obtain ⟨r₂, i₂⟩ := x₂
          simp only
          exact ih _ _ _ _ (readValue_index_ne_length encoded hmid _ _ _ _ _ _ h₂)
    · rw [if_neg (by omega), if_neg hlt]

/-- A string that ends in the middle of a value is decoded like the same
string closed by the character `?`, a chunk of zero. -/
theorem decodePolyline_append_zero (encoded : List Nat) (hmid : endsMidValue encoded = true)
    (path : List Point) (h : decodePolyline encoded = some path) :
    decodePolyline (encoded ++ [63]) = some path := by
  have hne : 0 ≠ encoded.length := by
    intro h0
    have : encoded = [] := List.eq_nil_of_length_eq_zero h0.symm
    rw [this] at hmid; simp [endsMidValue] at hmid
  unfold decodePolyline at h ⊢
  simp only [List.length_append, List.length_singleton]
  rw [decodeLoop_append_zero encoded hmid _ _ _ _ _ _ hne]
  exact decodeLoop_inner_succ encoded _ _ _ _ _ _ _
    (decodeLoop_fuel_succ encoded _ _ _ _ _ _ _ h)

/-! ## Coordinates of the earth -/

theorem deltasFit_of_onEarth : ∀ (path : List Point) (lat lng : Int),
    -9000000 ≤ lat → lat ≤ 9000000 → -18000000 ≤ lng → lng ≤ 18000000 →
    (∀ p ∈ path, p.OnEarth) → DeltasFit lat lng path := by
  intro path
  induction path with
  | nil => intro _ _ _ _ _ _ _; trivial
  | cons p rest ih =>
    intro lat lng h₁ h₂ h₃ h₄ hall
    obtain ⟨⟨a₁, a₂⟩, a₃, a₄⟩ := hall p (List.mem_cons_self _ _)
    refine ⟨⟨by omega, by omega⟩, ⟨by omega, by omega⟩, ?_⟩
    exact ih p.lat p.lng a₁ a₂ a₃ a₄ (fun q hq => hall q (List.mem_cons_of_mem _ hq))

theorem exact_of_onEarth {p : Point} (h : p.OnEarth) : p.Exact := by
  obtain ⟨⟨a₁, a₂⟩, a₃, a₄⟩ := h
  exact ⟨⟨by omega, by omega⟩, by omega, by omega⟩

theorem pathDeltas_onEarth : ∀ (path : List Point) (lat lng : Int),
    -9000000 ≤ lat → lat ≤ 9000000 → -18000000 ≤ lng → lng ≤ 18000000 →
    (∀ p ∈ path, p.OnEarth) →
    ∀ d ∈ pathDeltas lat lng path, -36000000 ≤ d ∧ d ≤ 36000000 := by
  intro path
  induction path with
  | nil => intro _ _ _ _ _ _ _ d hd; simp [pathDeltas] at hd
  | cons p rest ih =>
    intro lat lng h₁ h₂ h₃ h₄ hall d hd
    obtain ⟨⟨a₁, a₂⟩, a₃, a₄⟩ := hall p (List.mem_cons_self _ _)
    simp only [pathDeltas, List.mem_cons] at hd
    rcases hd with rfl | rfl | hd
    · omega
    · omega
    · exact ih p.lat p.lng a₁ a₂ a₃ a₄ (fun q hq => hall q (List.mem_cons_of_mem _ hq)) d hd

/-- A value below `32^k` is written in at most `k` chunks. -/
theorem encodeChunks_length_le : ∀ (fuel k value : Nat), value < 32 ^ (k + 1) →
    (encodeChunks fuel value).length ≤ k + 1 := by
  intro fuel
  induction fuel with
  | zero => intro k value _; simp [encodeChunks]
  | succ n ih =>
    intro k value h
    by_cases hsmall : value < 32
    · rw [encodeChunks_small hsmall]; simp
    · rw [encodeChunks_large (by omega)]
      cases k with
      | zero => simp at h; omega
      | succ j =>
        have hdiv : value / 32 < 32 ^ (j + 1) := by
          apply Nat.div_lt_of_lt_mul
          rw [pow_succ] at h; omega
        have := ih j (value / 32) hdiv
        simp only [List.length_cons]; omega

/-! ## The properties of the specification -/

/-- C1, as stated, fails: the path with the single point `(2^30, 0)`, in units
of `1e-5` degree, is encoded as `______A?` and decoded as `(-2^30, 0)`, because
the chunk `2` shifted left by 30 is the sign bit of a 32-bit integer. -/
theorem large_delta_breaks_roundtrip :
    encodePolyline [⟨1073741824, 0⟩] = codes "______A?" ∧
    decodePolyline (encodePolyline [⟨1073741824, 0⟩]) = some [⟨-1073741824, 0⟩] ∧
    decodePolyline (encodePolyline [⟨1073741824, 0⟩]) ≠ some [⟨1073741824, 0⟩] := by
  decide

/-- C1, amended: when every difference between successive points (the first
taken from `(0, 0)`) lies in `[-2^30, 2^30)` and every coordinate is an integer
of magnitude at most `2^53`, decoding the standard encoding of a path returns
exactly that path, in the same order. -/
theorem roundtrip_within_int32 (path : List Point) (hfit : DeltasFit 0 0 path)
    (hexact : ∀ p ∈ path, p.Exact) :
    decodePolyline (encodePolyline path) = some path :=
  decodePolyline_encodePolyline_of_fit path hfit hexact

/-- C1, at a path of three points, the second difference of longitude being
the least one that fits. -/
theorem roundtrip_within_int32_witness :
    DeltasFit 0 0 [⟨3850000, -12020000⟩, ⟨1073741823, -1085761824⟩, ⟨4325200, -12645300⟩] ∧
    (∀ p ∈ [(⟨3850000, -12020000⟩ : Point), ⟨1073741823, -1085761824⟩, ⟨4325200, -12645300⟩], p.Exact) ∧
    decodePolyline (encodePolyline [⟨3850000, -12020000⟩, ⟨1073741823, -1085761824⟩, ⟨4325200, -12645300⟩])
      = some [⟨3850000, -12020000⟩, ⟨1073741823, -1085761824⟩, ⟨4325200, -12645300⟩] :=
  have hfit : DeltasFit 0 0 [⟨3850000, -12020000⟩, ⟨1073741823, -1085761824⟩, ⟨4325200, -12645300⟩] := by
    simp only [DeltasFit]; decide
  have hexact : ∀ p ∈ [(⟨3850000, -12020000⟩ : Point), ⟨1073741823, -1085761824⟩, ⟨4325200, -12645300⟩],
      p.Exact := by
    intro p hp
    simp only [List.mem_cons, List.mem_singleton, List.not_mem_nil, or_false] at hp
    rcases hp with rfl | rfl | rfl <;> simp only [Point.Exact] <;> decide
  ⟨hfit, hexact, roundtrip_within_int32 _ hfit hexact⟩

/-- The least difference that does not fit, `-2^30 - 1`, is decoded as
`2^30 - 1`. -/
theorem delta_below_range_breaks_roundtrip :
    decodePolyline (encodePolyline [⟨0, -1073741825⟩]) = some [⟨0, 1073741823⟩] := by
  decide

/-- C2, as stated, fails: the string `_` ends in the middle of a value, and
`decodePolyline` returns the path with the single point `(0, 0)` for it. -/
theorem lone_continuation_char_decodes :
    endsMidValue (codes "_") = true ∧ decodePolyline (codes "_") = some [⟨0, 0⟩] := by
  decide

/-- C2, amended: for every string whose last character has the continuation
bit set, `decodePolyline` raises nothing and returns a path: the path it
returns for the same string closed by the character `?` (a chunk of zero),
which is not empty and has one point for every two values of the string, the
truncated one included. -/
theorem truncated_string_returns_path (encoded : List Nat) (h : endsMidValue encoded = true) :
    ∃ path, decodePolyline encoded = some path ∧
      decodePolyline (encoded ++ codes "?") = some path ∧ path ≠ [] ∧
      path.length = (completeValues encoded + 2) / 2 := by
  obtain ⟨path, hpath, hlen⟩ := decodePolyline_length encoded
  have hvc : valueCount encoded = completeValues encoded + 1 := by
    unfold valueCount; rw [if_pos h]
  refine ⟨path, hpath, decodePolyline_append_zero encoded h path hpath, ?_, by rw [hlen, hvc]⟩
  intro hnil
  rw [hnil, hvc] at hlen
  simp only [List.length_nil] at hlen
  omega

/-- C2, at the string `_p~iF~ps|U_`, which ends in the middle of its third
value. -/
theorem truncated_string_returns_path_witness :
    endsMidValue (codes "_p~iF~ps|U_") = true ∧
    ∃ path, decodePolyline (codes "_p~iF~ps|U_") = some path ∧
      decodePolyline (codes "_p~iF~ps|U_" ++ codes "?") = some path ∧ path ≠ [] ∧
      path.length = (completeValues (codes "_p~iF~ps|U_") + 2) / 2 :=
  ⟨by decide, truncated_string_returns_path (codes "_p~iF~ps|U_") (by decide)⟩

/-- C3: the published example string decodes to the three points
`(38.5, -120.2)`, `(40.7, -120.95)`, `(43.252, -126.453)`, given here by their
integer accumulators. -/
theorem known_vector_decodes :
    decodePolyline (codes "_p~iF~ps|U_ulLnnqC_mqNvxq`@")
      = some [⟨3850000, -12020000⟩, ⟨4070000, -12095000⟩, ⟨4325200, -12645300⟩] := by
  decide

/-- C4, as stated, fails: the string `_p~iF` holds one complete value, so no
complete pair, and its decoded path has one point, `(38.5, 0)`. -/
theorem single_value_yields_point :
    completeValues (codes "_p~iF") = 1 ∧
    decodePolyline (codes "_p~iF") = some [⟨3850000, 0⟩] ∧
    [(⟨3850000, 0⟩ : Point)].length ≠ completeValues (codes "_p~iF") / 2 := by
  decide

/-- C4, amended: for every string, the number of points returned is the number
of values of the string, a truncated last one included, halved upwards; that
is half the number `k` of complete values, rounded down, and one more when a
value is left over (the string ends in the middle of a value, or `k` is odd). -/
theorem point_count_rounds_up (encoded : List Nat) :
    ∃ path, decodePolyline encoded = some path ∧
      path.length = (valueCount encoded + 1) / 2 ∧
      path.length = completeValues encoded / 2
        + (if endsMidValue encoded = true ∨ completeValues encoded % 2 = 1 then 1 else 0) := by
  obtain ⟨path, hpath, hlen⟩ := decodePolyline_length encoded
  refine ⟨path, hpath, hlen, ?_⟩
  rw [hlen]
  unfold valueCount
  by_cases hmid : endsMidValue encoded = true
  · rw [if_pos hmid, if_pos (Or.inl hmid)]; omega
  · by_cases hodd : completeValues encoded % 2 = 1
    · rw [if_neg hmid, if_pos (Or.inr hodd)]; omega
    · rw [if_neg hmid, if_neg (by rintro (h | h); exact hmid h; exact hodd h)]; omega

/-- C5: a second point that lies below the first in latitude and in longitude
is decoded below it, by exactly the original differences; the two values read
for it have the lowest bit set and are decoded by the complement rule as
`-(result >> 1) - 1`, the original negative difference. -/
theorem negative_delta_decodes (p₁ p₂ : Point) (h₁ : p₁.OnEarth) (h₂ : p₂.OnEarth)
    (hlat : p₂.lat < p₁.lat) (hlng : p₂.lng < p₁.lng) :
    (∃ q₁ q₂, decodePolyline (encodePolyline [p₁, p₂]) = some [q₁, q₂] ∧
      q₂.lat < q₁.lat ∧ q₂.lng < q₁.lng ∧
      q₂.lat - q₁.lat = p₂.lat - p₁.lat ∧ q₂.lng - q₁.lng = p₂.lng - p₁.lng) ∧
    (∃ result index result' index',
      readValue (encodePolyline [p₁, p₂]) ((encodePolyline [p₁, p₂]).length + 1)
        (encodePolyline [p₁]).length 0 0 = some (result, index) ∧
      readValue (encodePolyline [p₁, p₂]) ((encodePolyline [p₁, p₂]).length + 1)
        index 0 0 = some (result', index') ∧
      and32 result 1 = 1 ∧ signedDelta result = -(sar32 result 1) - 1 ∧
      signedDelta result = p₂.lat - p₁.lat ∧
      and32 result' 1 = 1 ∧ signedDelta result' = -(sar32 result' 1) - 1 ∧
      signedDelta result' = p₂.lng - p₁.lng) := by
  obtain ⟨⟨a₁, a₂⟩, a₃, a₄⟩ := h₁
  obtain ⟨⟨b₁, b₂⟩, b₃, b₄⟩ := h₂
  have hall : ∀ p ∈ [p₁, p₂], p.OnEarth := by
    intro p hp
    simp only [List.mem_cons, List.mem_singleton, List.not_mem_nil, or_false] at hp
    rcases hp with rfl | rfl
    · exact ⟨⟨a₁, a₂⟩, a₃, a₄⟩
    · exact ⟨⟨b₁, b₂⟩, b₃, b₄⟩
  have hround := decodePolyline_encodePolyline_of_fit [p₁, p₂]
    (deltasFit_of_onEarth _ 0 0 (by decide) (by decide) (by decide) (by decide) hall)
    (fun p hp => exact_of_onEarth (hall p hp))
  refine ⟨⟨p₁, p₂, hround, hlat, hlng, rfl, rfl⟩, ?_⟩
  have e₁ : encodePolyline [p₁, p₂]
      = encodePolyline [p₁] ++ encodeSigned (p₂.lat - p₁.lat)
        ++ (encodeSigned (p₂.lng - p₁.lng)) := by
    simp only [encodePolyline, encodePath, List.append_nil, List.append_assoc]
  have e₂ : encodePolyline [p₁, p₂]
      = (encodePolyline [p₁] ++ encodeSigned (p₂.lat - p₁.lat))
        ++ encodeSigned (p₂.lng - p₁.lng) ++ [] := by
    simp only [encodePolyline, encodePath, List.append_nil, List.append_assoc]
  have hlen : (encodePolyline [p₁, p₂]).length
      = (encodePolyline [p₁]).length + (encodeSigned (p₂.lat - p₁.lat)).length
        + (encodeSigned (p₂.lng - p₁.lng)).length := by
    rw [e₁]; simp only [List.length_append]
  have r₁ : readValue (encodePolyline [p₁, p₂]) ((encodePolyline [p₁, p₂]).length + 1)
      (encodePolyline [p₁]).length 0 0
      = some (Int.ofNat (zigzag (p₂.lat - p₁.lat)),
          (encodePolyline [p₁]).length + (encodeSigned (p₂.lat - p₁.lat)).length) := by
    have h := readValue_encodeSigned (p₂.lat - p₁.lat) (encodePolyline [p₁])
      (encodeSigned (p₂.lng - p₁.lng)) ((encodePolyline [p₁, p₂]).length + 1)
      (by omega) (by omega) (by omega)
    rw [← e₁] at h; exact h
  have r₂ : readValue (encodePolyline [p₁, p₂]) ((encodePolyline [p₁, p₂]).length + 1)
      ((encodePolyline [p₁]).length + (encodeSigned (p₂.lat - p₁.lat)).length) 0 0
      = some (Int.ofNat (zigzag (p₂.lng - p₁.lng)),
          (encodePolyline [p₁] ++ encodeSigned (p₂.lat - p₁.lat)).length
            + (encodeSigned (p₂.lng - p₁.lng)).length) := by
    have h := readValue_encodeSigned (p₂.lng - p₁.lng)
      (encodePolyline [p₁] ++ encodeSigned (p₂.lat - p₁.lat)) []
      ((encodePolyline [p₁, p₂]).length + 1) (by omega) (by omega) (by omega)
    rw [← e₂, List.length_append] at h
    rw [List.length_append]; exact h
  refine ⟨_, _, _, _, r₁, r₂, ?_, ?_, ?_, ?_, ?_, ?_⟩
  · exact and32_zigzag_of_neg (by omega) (by omega)
  · rw [signedDelta_zigzag (by omega) (by omega),
      complement_zigzag_of_neg (by omega) (by omega)]
  · exact signedDelta_zigzag (by omega) (by omega)
  · exact and32_zigzag_of_neg (by omega) (by omega)
  · rw [signedDelta_zigzag (by omega) (by omega),
      complement_zigzag_of_neg (by omega) (by omega)]
  · exact signedDelta_zigzag (by omega) (by omega)

/-- C5, at the path from `(38.5, -120.2)` down to `(-12.34567, -170)`. -/
theorem negative_delta_decodes_witness :
    (⟨3850000, -12020000⟩ : Point).OnEarth ∧ (⟨-1234567, -17000000⟩ : Point).OnEarth ∧
    (∃ q₁ q₂, decodePolyline (encodePolyline [⟨3850000, -12020000⟩, ⟨-1234567, -17000000⟩])
        = some [q₁, q₂] ∧
      q₂.lat < q₁.lat ∧ q₂.lng < q₁.lng ∧
      q₂.lat - q₁.lat = -1234567 - 3850000 ∧ q₂.lng - q₁.lng = -17000000 - -12020000) :=
  ⟨by simp only [Point.OnEarth]; decide, by simp only [Point.OnEarth]; decide,
    (negative_delta_decodes ⟨3850000, -12020000⟩ ⟨-1234567, -17000000⟩
      (by simp only [Point.OnEarth]; decide) (by simp only [Point.OnEarth]; decide)
      (by decide) (by decide)).1⟩

/-- C6: the empty string decodes to the empty path. -/
theorem empty_string_decodes : decodePolyline (codes "") = some [] := by
  decide

/-- C7: for coordinates of the earth, decoding the standard encoding of a path
returns exactly that path under the 32-bit semantics of the operators; every
difference written has a sign-mapped value below `2^27` and at most six chunks,
so that the largest shift count is 25. -/
theorem earth_roundtrip (path : List Point) (h : ∀ p ∈ path, p.OnEarth) :
    decodePolyline (encodePolyline path) = some path ∧
    ∀ d ∈ pathDeltas 0 0 path, zigzag d < 134217728 ∧ (encodeSigned d).length ≤ 6 := by
  refine ⟨decodePolyline_encodePolyline_of_fit path
    (deltasFit_of_onEarth _ 0 0 (by decide) (by decide) (by decide) (by decide) h)
    (fun p hp => exact_of_onEarth (h p hp)), ?_⟩
  intro d hd
  obtain ⟨hd₁, hd₂⟩ :=
    pathDeltas_onEarth path 0 0 (by decide) (by decide) (by decide) (by decide) h d hd
  have hz : zigzag d < 134217728 := by unfold zigzag; split <;> omega
  refine ⟨hz, ?_⟩
  exact encodeChunks_length_le (zigzag d) 5 (zigzag d) (by norm_num; omega)

/-- C7, at the path of the published example followed by the south-east and
north-west corners of the coordinate range. -/
theorem earth_roundtrip_witness :
    (∀ p ∈ [(⟨3850000, -12020000⟩ : Point), ⟨4070000, -12095000⟩, ⟨-9000000, 18000000⟩,
      ⟨9000000, -18000000⟩], p.OnEarth) ∧
    decodePolyline (encodePolyline [⟨3850000, -12020000⟩, ⟨4070000, -12095000⟩,
      ⟨-9000000, 18000000⟩, ⟨9000000, -18000000⟩])
      = some [⟨3850000, -12020000⟩, ⟨4070000, -12095000⟩, ⟨-9000000, 18000000⟩,
          ⟨9000000, -18000000⟩] :=
  have hall : ∀ p ∈ [(⟨3850000, -12020000⟩ : Point), ⟨4070000, -12095000⟩,
      ⟨-9000000, 18000000⟩, ⟨9000000, -18000000⟩], p.OnEarth := by
    intro p hp
    simp only [List.mem_cons, List.mem_singleton, List.not_mem_nil, or_false] at hp
    rcases hp with rfl | rfl | rfl | rfl <;> simp only [Point.OnEarth] <;> decide
  ⟨hall, (earth_roundtrip _ hall).1⟩

/-- C8: `decodePolyline` returns on every string.  A read at or past the end
gives a byte that does not continue; an inner loop started at `index` returns
within `encoded.length - index + 1` iterations, so at the latest one read after
the end; two inner loops in a row advance the index by at least two; and the
outer loop returns within `(encoded.length + 1) / 2` iterations (one more unit
of fuel pays for the last test of its condition), with as many points. -/
theorem decoder_terminates (encoded : List Nat) :
    (∀ index, encoded.length ≤ index → continues (byteAt encoded index) = false) ∧
    (∀ (index shift : Nat) (result : Int), ∃ r index',
      readValue encoded (encoded.length - index + 1) index shift result = some (r, index') ∧
      index < index' ∧ index' ≤ max index encoded.length + 1) ∧
    (∀ (inner index : Nat) (r₁ r₂ : Int) (i₁ i₂ : Nat),
      readValue encoded inner index 0 0 = some (r₁, i₁) →
      readValue encoded inner i₁ 0 0 = some (r₂, i₂) → index + 2 ≤ i₂) ∧
    (∃ path, decodePolyline encoded = some path ∧
      decodeLoop encoded (encoded.length + 1) ((encoded.length + 1) / 2 + 1) 0 0 0 []
        = some path ∧
      path.length ≤ (encoded.length + 1) / 2) := by
  refine ⟨?_, ?_, ?_, ?_⟩
  · intro index h
    rw [byteAt_of_le h]; rfl
  · intro index shift result
    obtain ⟨r, hr⟩ := readValue_drop encoded (encoded.length - index + 1) index shift result
      (by omega)
    have hpos := valueLength_pos (encoded.drop index)
    have hle := valueLength_le (encoded.drop index)
    rw [List.length_drop] at hle
    refine ⟨r, _, hr, by omega, ?_⟩
    rcases Nat.le_total index encoded.length with hcase | hcase
    · rw [max_eq_right hcase]; omega
    · rw [max_eq_left hcase]; omega
  · intro inner index r₁ r₂ i₁ i₂ h₁ h₂
    have a := readValue_index_lt encoded _ _ _ _ _ _ h₁
    have b := readValue_index_lt encoded _ _ _ _ _ _ h₂
    omega
  · obtain ⟨path, hpath, hlen⟩ := decodeLoop_length encoded (encoded.length + 1) (by omega)
      ((encoded.length + 1) / 2 + 1) 0 0 0 [] (by omega)
    refine ⟨path, ?_, hpath, ?_⟩
    · exact decodeLoop_fuel_le encoded _ (by omega) hpath
    · have := valueCount_le_length encoded
      simp only [List.drop_zero, List.length_nil, Nat.zero_add] at hlen
      omega

/-- C9 fails when the start field is empty: with one waypoint the request has
two locations, three demands and three time windows. -/
theorem request_misaligned_without_start (parseInt : String → Option Int) :
    ∃ request,
      buildRequest parseInt
        { startLocation := "", endLocation := "1.3644,103.9915",
          waypoints := ["1.30,103.80"], numVehicles := "2", optimizationType := "time" }
        = Except.ok request ∧
      request.locations = ["1.30,103.80", "1.3644,103.9915"] ∧
      request.demands = [0, 1, 1] ∧
      request.time_windows = [(0, 86400), (28800, 64800), (28800, 64800)] ∧
      request.locations.length = 2 ∧ request.demands.length = 3 ∧
      request.time_windows.length = 3 :=
  ⟨_, rfl, rfl, rfl, rfl, rfl, rfl, rfl⟩

/-- When neither the start, nor the end, nor a waypoint is empty, the request
is built and its three arrays have the same length. -/
theorem request_aligned_when_filled (parseInt : String → Option Int) (formData : FormData)
    (hstart : formData.startLocation ≠ "") (hend : formData.endLocation ≠ "")
    (hway : ∀ w ∈ formData.waypoints, w ≠ "") :
    ∃ request, buildRequest parseInt formData = Except.ok request ∧
      request.demands.length = request.locations.length ∧
      request.time_windows.length = request.locations.length := by
  have hfilter : ([formData.startLocation] ++ formData.waypoints
      ++ [formData.endLocation]).filter (fun s => decide (s ≠ ""))
      = [formData.startLocation] ++ formData.waypoints ++ [formData.endLocation] := by
    rw [List.filter_eq_self]
    intro s hs
    simp only [List.mem_append, List.mem_singleton] at hs
    rcases hs with (rfl | hs) | rfl
    · simpa using hstart
    · simpa using hway s hs
    · simpa using hend
  unfold buildRequest
  simp only [hfilter]
  rw [if_neg (by simp only [List.length_append, List.length_singleton]; omega)]
  refine ⟨_, rfl, ?_, ?_⟩ <;> simp

/-- C10, as stated, fails: for the vehicle id `-1` the remainder is `-1` and
the read of the palette gives `undefined`. -/
theorem route_color_of_minus_one : getRouteColor (-1) = none := by
  decide

/-- C10, amended: for every vehicle id that is not negative, `getRouteColor`
returns the colour of the palette at position `vehicleId mod 6`; the ids 0 to 5
receive six different colours, and two such ids that differ by a multiple of 6
receive the same colour. -/
theorem route_color_of_index (vehicleId other : Int) (h : 0 ≤ vehicleId)
    (h' : 0 ≤ other) :
    (∃ c ∈ colors, getRouteColor vehicleId = some c) ∧
    getRouteColor vehicleId = colors[(vehicleId % 6).toNat]? ∧
    ((vehicleId - other) % 6 = 0 → getRouteColor vehicleId = getRouteColor other) ∧
    ([0, 1, 2, 3, 4, 5].map getRouteColor).Nodup := by
  have key : ∀ v : Int, 0 ≤ v → getRouteColor v = colors[(v % 6).toNat]? := by
    intro v hv
    unfold getRouteColor
    have hlen : Int.ofNat colors.length = 6 := rfl
    simp only [hlen]
    rw [Int.tmod_eq_emod hv (by decide), if_pos (Int.emod_nonneg _ (by decide))]
  refine ⟨?_, key vehicleId h, ?_, by decide⟩
  · rw [key vehicleId h]
    have hlt : (vehicleId % 6).toNat < colors.length := by
      have : colors.length = 6 := rfl
      omega
    exact ⟨colors[(vehicleId % 6).toNat], List.getElem_mem _, List.getElem?_eq_getElem hlt⟩
  · intro hmod
    rw [key vehicleId h, key other h']
    have : vehicleId % 6 = other % 6 := by omega
    rw [this]

/-- C10, at the vehicle ids 7 and 1. -/
theorem route_color_of_index_witness :
    getRouteColor 7 = some "#4ECDC4" ∧ getRouteColor 7 = getRouteColor 1 :=
  have h := route_color_of_index 7 1 (by decide) (by decide)
  ⟨by rw [h.2.1]; decide, h.2.2.1 (by decide)⟩

end LogisticsOptimizer
